import Mathlib

/-!
Shallow embedding of the traversal combinators and string utilities of
`src/pstd.hpp` (namespace `pstd`).

Containers are modelled as `List α` (the source's combinators require an
ordered sequence with `begin`/`end`; `pop` additionally requires
`front`/`pop_front`).  A C++ iterator into the container is modelled as an
integer position: `0` is `begin`, `cont.length` is `end`, and `-1` is the
before-begin position that `--begin()` would produce.  Loops that mutate the
container during iteration (`remove`) are embedded as recursion on the pair
(current container, current position), mirroring the source loop body
statement by statement.  Combinators whose loop body performs no container
operation (`each`, `until`, `find`) are embedded in state-passing style:
they return the result paired with the container as it stands after the
loop, so that non-mutation is a provable property of the embedding rather
than an assumption.  Callback invocations are recorded as traces (for
`each`) or counts (for `until`), since the callbacks themselves are pure in
the embedding.
-/

namespace pstd

/-- Embedding of `pstd::each(cont, func)` (src/pstd.hpp:168-172):
`for (auto iter = cont.begin(); iter != cont.end(); ++iter) func(*iter);`.
The first component is the trace of arguments passed to `func`, in call
order; the second is the container after the loop (the body performs no
container operation, so each iteration passes the element through
unchanged). -/
def each {α : Type} : List α → List α × List α
  | [] => ([], [])
  | a :: l =>
    let r := each l
    (a :: r.1, a :: r.2)

/-- Loop of the indexed `pstd::each` overload (src/pstd.hpp:174-182): at each
iteration `i = std::distance(begin, iter)` is the current position, and
`func(*iter, i)` is called.  The accumulator `i` is exactly that distance.
Returns the trace of `(element, index)` argument pairs in call order, and
the container after the loop. -/
def eachIdxLoop {α : Type} : List α → Nat → List (α × Nat) × List α
  | [], _ => ([], [])
  | a :: l, i =>
    let r := eachIdxLoop l (i + 1)
    ((a, i) :: r.1, a :: r.2)

/-- Embedding of the indexed `pstd::each(cont, func)` overload
(src/pstd.hpp:174-182), starting from `begin`, i.e. distance `0`. -/
def eachIdx {α : Type} (cont : List α) : List (α × Nat) × List α :=
  eachIdxLoop cont 0

/-- Embedding of `pstd::until(cont, func)` (src/pstd.hpp:184-194): visits
elements in order, returns `!0` (true) as soon as `func(*iter)` holds,
`!1` (false) after the loop otherwise.  State-passing: the second component
is the container after the call (the loop only reads). -/
def untilRun {α : Type} (func : α → Bool) : List α → Bool × List α
  | [] => (false, [])
  | a :: l =>
    if func a then (true, a :: l)
    else
      let r := untilRun func l
      (r.1, a :: r.2)

/-- Number of times `pstd::until`'s loop evaluates `func`: one evaluation per
iteration, and the loop stops right after an evaluation returns true. -/
def untilEvals {α : Type} (func : α → Bool) : List α → Nat
  | [] => 0
  | a :: l => if func a then 1 else untilEvals func l + 1

/-- Embedding of `pstd::find(cont, func)` (src/pstd.hpp:216-226): returns
`*iter` wrapped in `std::optional` for the first element satisfying `func`,
and the empty optional `{}` after the loop otherwise.  State-passing: the
second component is the container after the call (the loop only reads). -/
def find {α : Type} (func : α → Bool) : List α → Option α × List α
  | [] => (none, [])
  | a :: l =>
    if func a then (some a, a :: l)
    else
      let r := find func l
      (r.1, a :: r.2)

/-- Embedding of `pstd::pop(cont)` (src/pstd.hpp:228-237): if
`cont.size() == 0` return `{}` leaving `cont` alone; otherwise save
`cont.front()`, `cont.pop_front()`, and return the saved element.  Returns
the optional result paired with the container afterwards. -/
def pop {α : Type} (cont : List α) : Option α × List α :=
  if cont.length = 0 then (none, cont)
  else (cont.head?, cont.tail)

/-- Loop of `pstd::remove(cont, find)` (src/pstd.hpp:196-204), value
overload:
```
for (auto iter = cont.begin(); iter != cont.end(); ++iter) {
  if (*iter != find) continue;
  iter = --cont.erase(iter);
}
```
State: current container `cont` and iterator position `iter` (a loop-head
position, hence a `Nat`).  `cont.erase(iter)` removes the element at `iter`
and returns the iterator at position `iter` of the shrunken container; the
`--` then moves it to `(iter : Int) - 1`, and the loop's `++iter` moves it
back up.  The `Bool` component records whether the iterator was ever moved
to the before-begin position `-1` (which `--` does exactly when the erase
happened at position `0`, where no predecessor exists). -/
def removeLoop {α : Type} [DecidableEq α] (x : α) (cont : List α) (iter : Nat) :
    List α × Bool :=
  if h : iter < cont.length then
    if cont.get ⟨iter, h⟩ ≠ x then
      removeLoop x cont (iter + 1)
    else
      let r := removeLoop x (cont.eraseIdx iter) ((iter : Int) - 1 + 1).toNat
      (r.1, r.2 || decide ((iter : Int) - 1 < 0))
  else (cont, false)
termination_by cont.length - iter
decreasing_by
  · omega
  · have := List.length_eraseIdx_of_lt h
    omega

/-- Embedding of `pstd::remove(cont, find)` (src/pstd.hpp:196-204): the
final container paired with the before-begin flag of `removeLoop`. -/
def remove {α : Type} [DecidableEq α] (cont : List α) (x : α) : List α × Bool :=
  removeLoop x cont 0

/-- Loop of the predicate overload `pstd::remove(cont, func)`
(src/pstd.hpp:206-214): identical to `removeLoop` except the guard is
`if (!func(*iter)) continue;`. -/
def removePredLoop {α : Type} (func : α → Bool) (cont : List α) (iter : Nat) :
    List α × Bool :=
  if h : iter < cont.length then
    if !func (cont.get ⟨iter, h⟩) then
      removePredLoop func cont (iter + 1)
    else
      let r := removePredLoop func (cont.eraseIdx iter) ((iter : Int) - 1 + 1).toNat
      (r.1, r.2 || decide ((iter : Int) - 1 < 0))
  else (cont, false)
termination_by cont.length - iter
decreasing_by
  · omega
  · have := List.length_eraseIdx_of_lt h
    omega

/-- Embedding of the predicate overload `pstd::remove(cont, func)`
(src/pstd.hpp:206-214). -/
def removePred {α : Type} (cont : List α) (func : α → Bool) : List α × Bool :=
  removePredLoop func cont 0

/-- Embedding of `std::string::find(from)` scanning from position `i`:
returns the first position `j ≥ i` at which `pat` occurs, `none` when there
is none (the source compares the `npos` result against `EOF`, which on the
usual two's-complement conversion equals `npos`, so the `none` branch is the
`i == EOF` branch of the source). -/
def strFindLoop (pat : List Char) : List Char → Nat → Option Nat
  | t, i =>
    if pat.isPrefixOf t then some i
    else
      match t with
      | [] => none
      | _ :: ts => strFindLoop pat ts (i + 1)

/-- First occurrence of `pat` in `text`, as `std::string::find` computes it. -/
def strFind (text pat : List Char) : Option Nat :=
  strFindLoop pat text 0

/-- Embedding of `pstd::replace(text, from, to)` (src/pstd.hpp:86-93):
`auto i = text.find(from); if (i == EOF) return;
text.replace(i, from.length(), to);` — the C++ `text.replace(i, n, to)`
substitutes the range `[i, i + n)` of `text` by `to`.  Strings are modelled
as `List Char`; the in-place mutation is modelled by returning the new
text. -/
def replace (text f t : List Char) : List Char :=
  match strFind text f with
  | none => text
  | some i => text.take i ++ t ++ text.drop (i + f.length)

/-! ### Helper lemmas about the `remove` loops -/

theorem removeLoop_fst_aux {α : Type} [DecidableEq α] (x : α) (n : Nat) :
    ∀ (cont : List α) (iter : Nat), cont.length - iter ≤ n →
      (removeLoop x cont iter).1 =
        cont.take iter ++ (cont.drop iter).filter fun a => decide (a ≠ x) := by
  induction n with
  | zero =>
    intro cont iter hn
    have hge : ¬ iter < cont.length := by omega
    rw [removeLoop, dif_neg hge]
    rw [List.take_of_length_le (by omega), List.drop_eq_nil_of_le (by omega)]
    simp
  | succ n ih =>
    intro cont iter hn
    by_cases h : iter < cont.length
    · by_cases hx : cont.get ⟨iter, h⟩ = x
      · have hg : cont[iter] = x := by simpa using hx
        have htn : (((iter : Nat) : Int) - 1 + 1).toNat = iter := by omega
        have hlen := List.length_eraseIdx_of_lt h
        rw [removeLoop, dif_pos h, if_neg (by simp [hg])]
        dsimp only
        rw [htn, ih (cont.eraseIdx iter) iter (by omega)]
        rw [List.eraseIdx_eq_take_drop_succ]
        have htl : (cont.take iter).length = iter := by
          simp [List.length_take]; omega
        rw [List.take_left' htl, List.drop_left' htl]
        rw [List.drop_eq_getElem_cons h, List.filter_cons_of_neg (by simp [hg])]
      · have hg : ¬ cont[iter] = x := by simpa using hx
        rw [removeLoop, dif_pos h, if_pos hx]
        rw [ih cont (iter + 1) (by omega)]
        rw [List.drop_eq_getElem_cons h, List.filter_cons_of_pos (by simp [hg])]
        rw [List.take_succ, List.getElem?_eq_getElem h, Option.toList_some,
          List.append_assoc, List.singleton_append]
    · have hge := h
      rw [removeLoop, dif_neg hge]
      rw [List.take_of_length_le (by omega), List.drop_eq_nil_of_le (by omega)]
      simp

theorem removeLoop_fst {α : Type} [DecidableEq α] (x : α) (cont : List α)
    (iter : Nat) :
    (removeLoop x cont iter).1 =
      cont.take iter ++ (cont.drop iter).filter fun a => decide (a ≠ x) :=
  removeLoop_fst_aux x cont.length cont iter (by omega)

theorem remove_fst {α : Type} [DecidableEq α] (cont : List α) (x : α) :
    (remove cont x).1 = cont.filter fun a => decide (a ≠ x) := by
  rw [remove, removeLoop_fst]
  simp

theorem removeLoop_snd_pos_aux {α : Type} [DecidableEq α] (x : α) (n : Nat) :
    ∀ (cont : List α) (iter : Nat), cont.length - iter ≤ n → 0 < iter →
      (removeLoop x cont iter).2 = false := by
  induction n with
  | zero =>
    intro cont iter hn hpos
    rw [removeLoop, dif_neg (by omega)]
  | succ n ih =>
    intro cont iter hn hpos
    by_cases h : iter < cont.length
    · by_cases hx : cont.get ⟨iter, h⟩ = x
      · have hg : cont[iter] = x := by simpa using hx
        have htn : (((iter : Nat) : Int) - 1 + 1).toNat = iter := by omega
        have hlen := List.length_eraseIdx_of_lt h
        rw [removeLoop, dif_pos h, if_neg (by simp [hg])]
        dsimp only
        rw [htn, ih (cont.eraseIdx iter) iter (by omega) hpos]
        simp
        omega
      · rw [removeLoop, dif_pos h, if_pos hx]
        exact ih cont (iter + 1) (by omega) (by omega)
    · rw [removeLoop, dif_neg h]

theorem removeLoop_snd_cons {α : Type} [DecidableEq α] (x a : α) (l : List α) :
    (removeLoop x (a :: l) 0).2 = decide (a = x) := by
  by_cases hx : a = x
  · rw [removeLoop, dif_pos (by simp)]
    rw [if_neg (by simp [hx])]
    simp [hx]
  · rw [removeLoop, dif_pos (by simp)]
    rw [if_pos (by simpa using hx)]
    rw [removeLoop_snd_pos_aux x (a :: l).length (a :: l) 1 (by omega) (by omega)]
    simp [hx]

theorem removeLoop_snd_nil {α : Type} [DecidableEq α] (x : α) :
    (removeLoop x ([] : List α) 0).2 = false := by
  rw [removeLoop]
  simp

theorem remove_snd {α : Type} [DecidableEq α] (cont : List α) (x : α) :
    (remove cont x).2 = true ↔ ∃ l, cont = x :: l := by
  cases cont with
  | nil =>
    rw [remove, removeLoop_snd_nil]
    simp
  | cons a l =>
    rw [remove, removeLoop_snd_cons]
    constructor
    · intro ha
      exact ⟨l, by simp at ha; simp [ha]⟩
    · rintro ⟨l', hl'⟩
      cases hl'
      simp

theorem removePredLoop_fst_aux {α : Type} (p : α → Bool) (n : Nat) :
    ∀ (cont : List α) (iter : Nat), cont.length - iter ≤ n →
      (removePredLoop p cont iter).1 =
        cont.take iter ++ (cont.drop iter).filter fun a => !p a := by
  induction n with
  | zero =>
    intro cont iter hn
    have hge : ¬ iter < cont.length := by omega
    rw [removePredLoop, dif_neg hge]
    rw [List.take_of_length_le (by omega), List.drop_eq_nil_of_le (by omega)]
    simp
  | succ n ih =>
    intro cont iter hn
    by_cases h : iter < cont.length
    · by_cases hx : p (cont.get ⟨iter, h⟩) = true
      · have hg : p cont[iter] = true := by simpa using hx
        have htn : (((iter : Nat) : Int) - 1 + 1).toNat = iter := by omega
        have hlen := List.length_eraseIdx_of_lt h
        rw [removePredLoop, dif_pos h, if_neg (by simp [hg])]
        dsimp only
        rw [htn, ih (cont.eraseIdx iter) iter (by omega)]
        rw [List.eraseIdx_eq_take_drop_succ]
        have htl : (cont.take iter).length = iter := by
          simp [List.length_take]; omega
        rw [List.take_left' htl, List.drop_left' htl]
        rw [List.drop_eq_getElem_cons h, List.filter_cons_of_neg (by simp [hg])]
      · have hg : p cont[iter] = false := by
          rw [Bool.eq_false_iff]
          simpa using hx
        rw [removePredLoop, dif_pos h, if_pos (by simp [hg])]
        rw [ih cont (iter + 1) (by omega)]
        rw [List.drop_eq_getElem_cons h, List.filter_cons_of_pos (by simp [hg])]
        rw [List.take_succ, List.getElem?_eq_getElem h, Option.toList_some,
          List.append_assoc, List.singleton_append]
    · have hge := h
      rw [removePredLoop, dif_neg hge]
      rw [List.take_of_length_le (by omega), List.drop_eq_nil_of_le (by omega)]
      simp

theorem removePred_fst {α : Type} (cont : List α) (p : α → Bool) :
    (removePred cont p).1 = cont.filter fun a => !p a := by
  rw [removePred, removePredLoop_fst_aux p cont.length cont 0 (by omega)]
  simp

theorem removePredLoop_snd_pos_aux {α : Type} (p : α → Bool) (n : Nat) :
    ∀ (cont : List α) (iter : Nat), cont.length - iter ≤ n → 0 < iter →
      (removePredLoop p cont iter).2 = false := by
  induction n with
  | zero =>
    intro cont iter hn hpos
    rw [removePredLoop, dif_neg (by omega)]
  | succ n ih =>
    intro cont iter hn hpos
    by_cases h : iter < cont.length
    · by_cases hx : p (cont.get ⟨iter, h⟩) = true
      · have hg : p cont[iter] = true := by simpa using hx
        have htn : (((iter : Nat) : Int) - 1 + 1).toNat = iter := by omega
        have hlen := List.length_eraseIdx_of_lt h
        rw [removePredLoop, dif_pos h, if_neg (by simp [hg])]
        dsimp only
        rw [htn, ih (cont.eraseIdx iter) iter (by omega) hpos]
        simp
        omega
      · have hg : p cont[iter] = false := by
          rw [Bool.eq_false_iff]
          simpa using hx
        rw [removePredLoop, dif_pos h, if_pos (by simp [hg])]
        exact ih cont (iter + 1) (by omega) (by omega)
    · rw [removePredLoop, dif_neg h]

theorem removePredLoop_snd_cons {α : Type} (p : α → Bool) (a : α) (l : List α) :
    (removePredLoop p (a :: l) 0).2 = p a := by
  by_cases hx : p a = true
  · rw [removePredLoop, dif_pos (by simp)]
    rw [if_neg (by simp [List.get, hx])]
    simp [hx]
  · have hg : p a = false := by rw [Bool.eq_false_iff]; simpa using hx
    rw [removePredLoop, dif_pos (by simp)]
    rw [if_pos (by simp [List.get, hg])]
    rw [removePredLoop_snd_pos_aux p (a :: l).length (a :: l) 1 (by omega) (by omega)]
    exact hg.symm

theorem removePredLoop_snd_nil {α : Type} (p : α → Bool) :
    (removePredLoop p ([] : List α) 0).2 = false := by
  rw [removePredLoop]
  simp

theorem removePred_snd {α : Type} (cont : List α) (p : α → Bool) :
    (removePred cont p).2 = true ↔ ∃ a l, cont = a :: l ∧ p a = true := by
  cases cont with
  | nil =>
    rw [removePred, removePredLoop_snd_nil]
    simp
  | cons a l =>
    rw [removePred, removePredLoop_snd_cons]
    constructor
    · intro ha
      exact ⟨a, l, rfl, ha⟩
    · rintro ⟨a', l', hl', hp'⟩
      cases hl'
      exact hp'

/-! ### Helper lemmas about `each`, `until`, `find` -/

theorem each_fst {α : Type} (cont : List α) : (each cont).1 = cont := by
  induction cont with
  | nil => rfl
  | cons a l ih => simp [each, ih]

theorem each_snd {α : Type} (cont : List α) : (each cont).2 = cont := by
  induction cont with
  | nil => rfl
  | cons a l ih => simp [each, ih]

theorem eachIdxLoop_fst_map_fst {α : Type} (cont : List α) :
    ∀ i, ((eachIdxLoop cont i).1.map Prod.fst) = cont := by
  induction cont with
  | nil => intro i; rfl
  | cons a l ih => intro i; simp [eachIdxLoop, ih]

theorem eachIdxLoop_fst_map_snd {α : Type} (cont : List α) :
    ∀ i, ((eachIdxLoop cont i).1.map Prod.snd) = List.range' i cont.length := by
  induction cont with
  | nil => intro i; rfl
  | cons a l ih =>
    intro i
    simp only [eachIdxLoop, List.map_cons, ih (i + 1), List.length_cons]
    rw [List.range'_succ]

theorem eachIdxLoop_snd {α : Type} (cont : List α) :
    ∀ i, (eachIdxLoop cont i).2 = cont := by
  induction cont with
  | nil => intro i; rfl
  | cons a l ih => intro i; simp [eachIdxLoop, ih]

theorem untilRun_fst_iff {α : Type} (p : α → Bool) (cont : List α) :
    (untilRun p cont).1 = true ↔
      ∃ i, ∃ h : i < cont.length, p (cont.get ⟨i, h⟩) = true := by
  induction cont with
  | nil => simp [untilRun]
  | cons a l ih =>
    by_cases hp : p a = true
    · constructor
      · intro _
        exact ⟨0, by simp, by simpa using hp⟩
      · intro _
        simp [untilRun, hp]
    · have hstep : (untilRun p (a :: l)).1 = (untilRun p l).1 := by
        simp [untilRun, hp]
      rw [hstep, ih]
      constructor
      · rintro ⟨i, h, hpi⟩
        exact ⟨i + 1, by simp; omega, by simpa using hpi⟩
      · rintro ⟨i, h, hpi⟩
        cases i with
        | zero => simp at hpi; exact absurd hpi hp
        | succ j =>
          refine ⟨j, by simp at h; omega, ?_⟩
          simpa using hpi

theorem untilRun_snd {α : Type} (p : α → Bool) (cont : List α) :
    (untilRun p cont).2 = cont := by
  induction cont with
  | nil => rfl
  | cons a l ih =>
    by_cases hp : p a = true
    · simp [untilRun, hp]
    · simp [untilRun, hp, ih]

theorem untilEvals_le {α : Type} (p : α → Bool) (cont : List α) :
    ∀ i, ∀ h : i < cont.length, p (cont.get ⟨i, h⟩) = true →
      untilEvals p cont ≤ i + 1 := by
  induction cont with
  | nil => intro i h; simp at h
  | cons a l ih =>
    intro i h hpi
    by_cases hp : p a = true
    · simp [untilEvals, hp]
    · rw [untilEvals, if_neg (by simp [hp])]
      cases i with
      | zero => simp at hpi; exact absurd hpi hp
      | succ j =>
        have := ih j (by simp at h; omega) (by simpa using hpi)
        omega

theorem find_fst_none_iff {α : Type} (p : α → Bool) (cont : List α) :
    (find p cont).1 = none ↔
      ∀ i, ∀ h : i < cont.length, p (cont.get ⟨i, h⟩) = false := by
  induction cont with
  | nil => simp [find]
  | cons a l ih =>
    by_cases hp : p a = true
    · simp only [find, hp, if_pos]
      constructor
      · intro hnone
        exact absurd hnone (by simp)
      · intro hall
        have := hall 0 (by simp)
        simp [hp] at this
    · rw [find, if_neg (by simp [hp])]
      dsimp only
      rw [ih]
      constructor
      · intro hall i h
        cases i with
        | zero => simp; rw [Bool.eq_false_iff]; simpa using hp
        | succ j =>
          have := hall j (by simp at h; omega)
          simpa using this
      · intro hall j hj
        have := hall (j + 1) (by simp; omega)
        simpa using this

theorem find_fst_first {α : Type} (p : α → Bool) (cont : List α) :
    ∀ i, ∀ h : i < cont.length, p (cont.get ⟨i, h⟩) = true →
      (∀ j, ∀ hj : j < cont.length, j < i → p (cont.get ⟨j, hj⟩) = false) →
      (find p cont).1 = some (cont.get ⟨i, h⟩) := by
  induction cont with
  | nil => intro i h; simp at h
  | cons a l ih =>
    intro i h hpi hfirst
    cases i with
    | zero =>
      simp only [List.get] at hpi
      rw [find, if_pos hpi]
      simp
    | succ j =>
      have ha : p a = false := by
        have := hfirst 0 (by simp) (by omega)
        simpa using this
      rw [find, if_neg (by simp [ha])]
      dsimp only
      have hj : j < l.length := by simp at h; omega
      have := ih j hj (by simpa using hpi)
        (fun k hk hki => by
          have := hfirst (k + 1) (by simp; omega) (by omega)
          simpa using this)
      rw [this]
      simp

theorem find_fst_some_sat {α : Type} (p : α → Bool) (cont : List α) (e : α) :
    (find p cont).1 = some e → p e = true := by
  induction cont with
  | nil => intro hsome; simp [find] at hsome
  | cons a l ih =>
    intro hsome
    by_cases hp : p a = true
    · rw [find, if_pos hp] at hsome
      simp at hsome
      rw [← hsome]
      exact hp
    · rw [find, if_neg (by simp [hp])] at hsome
      exact ih hsome

theorem find_snd {α : Type} (p : α → Bool) (cont : List α) :
    (find p cont).2 = cont := by
  induction cont with
  | nil => rfl
  | cons a l ih =>
    by_cases hp : p a = true
    · simp [find, hp]
    · simp [find, hp, ih]

/-! ### Helper lemmas about `strFind` -/

theorem strFindLoop_spec (pat : List Char) (t : List Char) :
    ∀ i,
      (∀ j, strFindLoop pat t i = some j →
        i ≤ j ∧ pat.isPrefixOf (t.drop (j - i)) = true ∧
          ∀ k, k < j - i → pat.isPrefixOf (t.drop k) = false) ∧
      (strFindLoop pat t i = none →
        ∀ k, pat.isPrefixOf (t.drop k) = false) := by
  induction t with
  | nil =>
    intro i
    by_cases hp : pat.isPrefixOf ([] : List Char) = true
    · rw [strFindLoop, if_pos hp]
      constructor
      · intro j hj
        simp at hj
        refine ⟨by omega, by simpa [hj] using hp, ?_⟩
        intro k hk
        omega
      · intro hnone
        exact absurd hnone (by simp)
    · rw [strFindLoop, if_neg hp]
      constructor
      · intro j hj
        exact absurd hj (by simp)
      · intro _ k
        rw [List.drop_nil]
        rw [Bool.eq_false_iff]
        exact hp
  | cons a ts ih =>
    intro i
    by_cases hp : pat.isPrefixOf (a :: ts) = true
    · rw [strFindLoop, if_pos hp]
      constructor
      · intro j hj
        simp at hj
        refine ⟨by omega, by simpa [hj] using hp, ?_⟩
        intro k hk
        omega
      · intro hnone
        exact absurd hnone (by simp)
    · rw [strFindLoop, if_neg hp]
      constructor
      · intro j hj
        obtain ⟨hij, hpre, hmin⟩ := (ih (i + 1)).1 j hj
        refine ⟨by omega, ?_, ?_⟩
        · have : j - i = (j - (i + 1)) + 1 := by omega
          rw [this, List.drop_succ_cons]
          exact hpre
        · intro k hk
          cases k with
          | zero =>
            rw [List.drop_zero]
            rw [Bool.eq_false_iff]
            exact hp
          | succ m =>
            rw [List.drop_succ_cons]
            exact hmin m (by omega)
      · intro hnone k
        have hrec := (ih (i + 1)).2 hnone
        cases k with
        | zero =>
          rw [List.drop_zero]
          rw [Bool.eq_false_iff]
          exact hp
        | succ m =>
          rw [List.drop_succ_cons]
          exact hrec m

/-! ### Claim theorems -/

/-- C1: `remove(c, x)` removes every element equal to `x` in a single
left-to-right pass, preserving the relative order of the surviving elements
and leaving non-equal elements untouched — the result is the in-order
filter keeping the elements different from `x` — and the predicate overload
`remove(c, p)` removes exactly the elements on which `p` holds, with the
same ordering guarantee.  Concretely, on `[x, y, x, z]` (instantiated as
`[1, 2, 1, 3]` with target `1`) the result is `[y, z] = [2, 3]`, and on
`[1, 2, 3, 4]` with the is-even predicate the result is `[1, 3]`. -/
theorem C1_remove_filters {α : Type} [DecidableEq α] (cont : List α) (x : α)
    (p : α → Bool) :
    (remove cont x).1 = (cont.filter fun a => decide (a ≠ x))
  ∧ (removePred cont p).1 = (cont.filter fun a => !p a)
  ∧ (remove [1, 2, 1, 3] (1 : Int)).1 = [2, 3]
  ∧ (removePred [1, 2, 3, 4] fun n : Int => decide (n % 2 = 0)).1 = [1, 3] :=
  ⟨remove_fst cont x, removePred_fst cont p,
    by rw [remove_fst]; decide,
    by rw [removePred_fst]; decide⟩

/-- C2 counterexample: on the one-element container `[0]`, whose first (and
only) element equals the target, `remove`'s erase at position `0` is
followed by the decrement `--cont.erase(iter)`, which moves the iterator to
the before-begin position `-1`, and the loop's `++iter` then steps from
that out-of-range position; the before-begin flag of the embedded loop
records exactly this, so the claim that the iteration never steps to or
from an out-of-range position — for every pattern of matches, including a
match at the first position — is false at this input. -/
theorem C2_counterexample : (remove [(0 : Int)] 0).2 = true := by
  rw [remove, removeLoop_snd_cons]
  decide

/-- C2 amended: both `remove` overloads handle erasure during iteration
without skipping the element that follows an erased position and without
dereferencing an erased position — the final container is exactly the
in-order filter of the non-matching elements — but the iterator is moved to
the before-begin position (and the loop then steps from it) precisely when
the container's first element matches; for every other pattern of matching
elements (last position, adjacent positions, ...) no out-of-range position
is ever taken. -/
theorem C2_remove_iteration {α : Type} [DecidableEq α] (cont : List α) (x : α)
    (p : α → Bool) :
    (remove cont x).1 = (cont.filter fun a => decide (a ≠ x))
  ∧ (removePred cont p).1 = (cont.filter fun a => !p a)
  ∧ ((remove cont x).2 = true ↔ ∃ l, cont = x :: l)
  ∧ ((removePred cont p).2 = true ↔ ∃ a l, cont = a :: l ∧ p a = true) :=
  ⟨remove_fst cont x, removePred_fst cont p, remove_snd cont x,
    removePred_snd cont p⟩

/-- C3: `until(c, p)` returns true iff some element at an index `i` in
natural iteration order satisfies `p`; the loop evaluates `p` on
consecutive elements starting from index `0` and performs at most `i + 1`
evaluations for any satisfying index `i`, so `p` is never evaluated on an
element past the first satisfying index; on an empty container, or when no
element satisfies `p` (the contrapositive of the equivalence), it returns
false. -/
theorem C3_until_short_circuit {α : Type} (p : α → Bool) (cont : List α) :
    ((untilRun p cont).1 = true ↔
        ∃ i, ∃ h : i < cont.length, p (cont.get ⟨i, h⟩) = true)
  ∧ (∀ i, ∀ h : i < cont.length, p (cont.get ⟨i, h⟩) = true →
        untilEvals p cont ≤ i + 1)
  ∧ (untilRun p ([] : List α)).1 = false :=
  ⟨untilRun_fst_iff p cont, untilEvals_le p cont, rfl⟩

/-- C3 witness: on `[1, 2, 3]` with the is-even predicate, the first
satisfying index is `1`, and the loop evaluates the predicate at most
twice. -/
theorem C3_witness :
    untilEvals (fun n : Int => decide (n % 2 = 0)) [1, 2, 3] ≤ 2 :=
  (C3_until_short_circuit (fun n : Int => decide (n % 2 = 0)) [1, 2, 3]).2.1 1
    (by decide) (by decide)

/-- C4: `pop` on a container `a :: rest` returns `some a` and leaves the
container as `rest` — exactly one element fewer, starting with the old
second element when there is one — while on an empty container it returns
`none` and leaves the container entirely unchanged. -/
theorem C4_pop_front {α : Type} (cont : List α) :
    (∀ a rest, cont = a :: rest →
        pop cont = (some a, rest) ∧ rest.length = cont.length - 1)
  ∧ (cont = [] → pop cont = (none, cont)) := by
  constructor
  · rintro a rest rfl
    constructor
    · rw [pop, if_neg (by simp)]
      simp
    · simp
  · rintro rfl
    rfl

/-- C4 witness: popping `[1, 2, 3]` returns `1` and leaves `[2, 3]`. -/
theorem C4_witness :
    pop [(1 : Int), 2, 3] = (some 1, [2, 3]) ∧
      ([2, 3] : List Int).length = ([(1 : Int), 2, 3]).length - 1 :=
  (C4_pop_front [(1 : Int), 2, 3]).1 1 [2, 3] rfl

/-- C5: `find(c, p)` returns the element at the smallest index in natural
iteration order that satisfies `p`, and returns the absent optional iff no
element satisfies `p` — in particular on the empty container, where no
index exists. -/
theorem C5_find_first {α : Type} (p : α → Bool) (cont : List α) :
    (∀ i, ∀ h : i < cont.length, p (cont.get ⟨i, h⟩) = true →
        (∀ j, ∀ hj : j < cont.length, j < i → p (cont.get ⟨j, hj⟩) = false) →
        (find p cont).1 = some (cont.get ⟨i, h⟩))
  ∧ ((find p cont).1 = none ↔
        ∀ i, ∀ h : i < cont.length, p (cont.get ⟨i, h⟩) = false) :=
  ⟨find_fst_first p cont, find_fst_none_iff p cont⟩

/-- C5 witness: on `[1, 2, 3]` with the is-even predicate the smallest
satisfying index is `1`, and `find` returns `some 2`. -/
theorem C5_witness :
    (find (fun n : Int => decide (n % 2 = 0)) [1, 2, 3]).1 = some 2 := by
  have h := (C5_find_first (fun n : Int => decide (n % 2 = 0)) [1, 2, 3]).1 1
    (by decide) (by decide)
    (fun j hj hji => by
      have hj0 : j = 0 := by omega
      subst hj0
      show decide ((1 : Int) % 2 = 0) = false
      decide)
  exact h

/-- C6: `each(c, v)` invokes the visitor exactly `size(c)` times, once per
element, in the container's natural iteration order, passing each element
by value — the call trace equals the container — and the indexed overload
passes the zero-based positions `0 .. size(c)-1` in exactly that ascending
order, paired with the corresponding elements. -/
theorem C6_each_trace {α : Type} (cont : List α) :
    (each cont).1 = cont
  ∧ (each cont).1.length = cont.length
  ∧ (eachIdx cont).1.map Prod.fst = cont
  ∧ (eachIdx cont).1.map Prod.snd = List.range cont.length := by
  refine ⟨each_fst cont, by rw [each_fst], eachIdxLoop_fst_map_fst cont 0, ?_⟩
  rw [List.range_eq_range']
  exact eachIdxLoop_fst_map_snd cont 0

/-- C7: the combinators `each` (both overloads), `until`, and `find` leave
the caller's container untouched — the container after any such call holds
exactly the same elements in the same order as before — whereas `remove`
and `pop` do mutate it (shown on a concrete container that both shrink). -/
theorem C7_frame {α : Type} (p : α → Bool) (cont : List α) :
    (each cont).2 = cont
  ∧ (eachIdx cont).2 = cont
  ∧ (untilRun p cont).2 = cont
  ∧ (find p cont).2 = cont
  ∧ (remove [(1 : Int)] 1).1 ≠ [(1 : Int)]
  ∧ (pop [(1 : Int)]).2 ≠ [(1 : Int)] :=
  ⟨each_snd cont, eachIdxLoop_snd cont 0, untilRun_snd p cont, find_snd p cont,
    by rw [remove_fst]; decide,
    by decide⟩

/-- C8: `remove` is idempotent in its target: after `remove(c, x)` no
element of the container equals `x`, so a second call with the same target
changes nothing. -/
theorem C8_remove_idempotent {α : Type} [DecidableEq α] (cont : List α)
    (x : α) :
    (remove (remove cont x).1 x).1 = (remove cont x).1
  ∧ ∀ a, a ∈ (remove cont x).1 → a ≠ x := by
  constructor
  · rw [remove_fst, remove_fst, List.filter_filter]
    simp
  · intro a ha
    rw [remove_fst] at ha
    rw [List.mem_filter] at ha
    simpa using ha.2

/-- C8 witness: after `remove([1, 2, 1], 1)` the surviving element `2`
differs from the target `1`. -/
theorem C8_witness : (2 : Int) ≠ 1 :=
  (C8_remove_idempotent [1, 2, 1] 1).2 2 (by rw [remove_fst]; decide)

/-- C9: `find` and `remove` agree on predicates: if `find(c, p)` returns an
element `e`, then `e` satisfies `p` and the container left by
`remove(c, p)` contains no occurrence of `e` at all — in particular the
occurrence `find` reported is deleted. -/
theorem C9_find_remove {α : Type} (p : α → Bool) (cont : List α) (e : α) :
    (find p cont).1 = some e → p e = true ∧ e ∉ (removePred cont p).1 := by
  intro hfind
  have hpe := find_fst_some_sat p cont e hfind
  refine ⟨hpe, ?_⟩
  rw [removePred_fst]
  intro hmem
  rw [List.mem_filter] at hmem
  simp [hpe] at hmem

/-- C9 witness: on `[1, 2, 3]` with the is-even predicate, `find` returns
`some 2`, `2` is even, and `2` does not survive `remove` with the same
predicate. -/
theorem C9_witness :
    (fun n : Int => decide (n % 2 = 0)) 2 = true ∧
      (2 : Int) ∉ (removePred [1, 2, 3] fun n : Int => decide (n % 2 = 0)).1 :=
  C9_find_remove (fun n : Int => decide (n % 2 = 0)) [1, 2, 3] 2 (by decide)

/-- C10: `replace(text, from, to)` substitutes only the first occurrence of
`from` — the position it rewrites is the smallest one where `from` occurs,
and the suffix after the replaced range, hence every later occurrence, is
kept verbatim — and when `from` does not occur at all the text is returned
completely unchanged; consequently `type_name`'s cosmetic rewrite of
"> >" to ">>" is applied at most once per name, as on the concrete name
"a> >b> >c" where the second "> >" survives. -/
theorem C10_replace_first (text f t : List Char) :
    (strFind text f = none → replace text f t = text)
  ∧ (∀ i, strFind text f = some i →
      f.isPrefixOf (text.drop i) = true
      ∧ (∀ j, j < i → f.isPrefixOf (text.drop j) = false)
      ∧ replace text f t = text.take i ++ t ++ text.drop (i + f.length))
  ∧ replace ("a> >b> >c".data) ("> >".data) (">>".data) = "a>>b> >c".data := by
  refine ⟨?_, ?_, by decide⟩
  · intro h
    simp [replace, h]
  · intro i hi
    have hspec := (strFindLoop_spec f text 0).1 i hi
    refine ⟨by simpa using hspec.2.1, ?_, ?_⟩
    · intro j hj
      have := hspec.2.2 j (by omega)
      simpa using this
    · simp [replace, hi]

/-- C10 witness: in "a> >b> >c" the first occurrence of "> >" is at index
`1`; `replace` rewrites exactly that range and copies the rest verbatim. -/
theorem C10_witness :
    ("> >".data).isPrefixOf (("a> >b> >c".data).drop 1) = true
  ∧ (∀ j, j < 1 → ("> >".data).isPrefixOf (("a> >b> >c".data).drop j) = false)
  ∧ replace ("a> >b> >c".data) ("> >".data) (">>".data) =
      ("a> >b> >c".data).take 1 ++ (">>".data) ++
        ("a> >b> >c".data).drop (1 + ("> >".data).length) :=
  (C10_replace_first ("a> >b> >c".data) ("> >".data) (">>".data)).2.1 1
    (by decide)

end pstd
